import Mathlib

/-
Verification of the batch translation pipeline of json_translator_pro.py.

Strings are modelled as lists of characters (`Str`), and the model is
restricted to ASCII text: Python's `\w`, `\s`, `str.strip()` and
`str.upper` classes are Unicode-aware, but every character class used
below agrees with Python on ASCII inputs, which is what the claims and
all concrete inputs use.

All recursive functions are written with an explicit fuel argument equal
to the input length so that they are structurally recursive and reduce
inside the kernel; each carries the invariant that fuel is at least the
length of the remaining input, so the fuel-exhausted branches are
unreachable.
-/

namespace JTP

/-- Strings as character lists (ASCII model of Python `str`). -/
abbrev Str := List Char

/-- Python `\s` on ASCII: space, tab, newline, carriage return,
vertical tab, form feed. -/
def pyIsSpace (c : Char) : Bool :=
  c == ' ' || c == '\t' || c == '\n' || c == '\r' ||
  c == Char.ofNat 11 || c == Char.ofNat 12

/-- Python `\w` on ASCII: letters, digits, underscore. -/
def isWordChar (c : Char) : Bool :=
  c.isAlpha || c.isDigit || c == '_'

/-- Python `not s.strip()`: true iff every character is whitespace. -/
def isBlank (s : Str) : Bool :=
  s.all pyIsSpace

/-- Fuel-indexed worker for `replaceAll`; fuel starts at the length of
the text, and each step consumes at least one character (the pattern is
nonempty at every call site), so the fuel-zero branch is unreachable. -/
def replaceAllAux : Nat → Str → Str → Str → Str
  | _, [], _, _ => []
  | 0, s, _, _ => s
  | fuel+1, c :: rest, pat, rep =>
    if pat.isPrefixOf (c :: rest) then
      rep ++ replaceAllAux fuel ((c :: rest).drop pat.length) pat rep
    else
      c :: replaceAllAux fuel rest pat rep

/-- Python `text.replace(pat, rep)`: leftmost, non-overlapping
replacement of every occurrence.  The code never calls it with an empty
pattern (tokens and regex matches are nonempty); for an empty pattern we
return the text unchanged. -/
def replaceAll (s pat rep : Str) : Str :=
  if pat.isEmpty then s else replaceAllAux s.length s pat rep

/-- Python `pat in s`: `pat` occurs as a contiguous substring of
`s` (every string contains the empty string). -/
def occursIn : Str → Str → Bool
  | pat, [] => pat.isEmpty
  | pat, c :: rest => pat.isPrefixOf (c :: rest) || occursIn pat rest

/-! ### Regex matchers

Each matcher inspects the text at the current position and returns the
length of the regex match starting there, if any.  They mirror the
patterns of `_protect_placeholders`:

  curly      {[^}]+}          square     \[[^\]]+\]
  percent    %\w              html       <[^>]+>
  url        https?://[^\s"']+
  mention    @\w+             hashtag    #\w+
  emoji_code :[a-zA-Z0-9_]+:  caps       \b[A-Z]\x7b2,5\x7d\b

`caps` needs left context for the word boundary and gets a dedicated
scanner below. -/

/-- Matcher for `open [^close]+ close` shaped patterns (curly, square,
html).  The inner characters are exactly the characters distinct from
the closing delimiter, matching the regex character class. -/
def matchDelim (openC closeC : Char) (s : Str) : Option Nat :=
  match s with
  | [] => none
  | c :: rest =>
    if c = openC then
      let inner := rest.takeWhile (fun d => d ≠ closeC)
      if inner.length = 0 then none
      else
        match rest.drop inner.length with
        | d :: _ => if d = closeC then some (inner.length + 2) else none
        | [] => none
    else none

def curlyMatch : Str → Option Nat := matchDelim '{' '}'

def squareMatch : Str → Option Nat := matchDelim '[' ']'

def htmlMatch : Str → Option Nat := matchDelim '<' '>'

/-- Pattern `%\w`: a percent sign followed by one word character. -/
def percentMatch : Str → Option Nat
  | '%' :: d :: _ => if isWordChar d then some 2 else none
  | _ => none

/-- Characters allowed in the URL tail: `[^\s"']`. -/
def urlTailChar (c : Char) : Bool :=
  !(pyIsSpace c) && c != '"' && c != Char.ofNat 39

def httpsPrefixChars : Str := ['h','t','t','p','s',':','/','/']

def httpPrefixChars : Str := ['h','t','t','p',':','/','/']

/-- Pattern `https?://[^\s"']+`. -/
def urlMatch (s : Str) : Option Nat :=
  if httpsPrefixChars.isPrefixOf s then
    let run := (s.drop 8).takeWhile urlTailChar
    if run.length = 0 then none else some (8 + run.length)
  else if httpPrefixChars.isPrefixOf s then
    let run := (s.drop 7).takeWhile urlTailChar
    if run.length = 0 then none else some (7 + run.length)
  else none

/-- Patterns `@\w+` and `#\w+`. -/
def sigilMatch (sigil : Char) (s : Str) : Option Nat :=
  match s with
  | [] => none
  | c :: rest =>
    if c = sigil then
      let run := rest.takeWhile isWordChar
      if run.length = 0 then none else some (run.length + 1)
    else none

def mentionMatch : Str → Option Nat := sigilMatch '@'

def hashtagMatch : Str → Option Nat := sigilMatch '#'

/-- Pattern `:[a-zA-Z0-9_]+:` — on ASCII the bracket class equals `\w`. -/
def emojiMatch : Str → Option Nat
  | ':' :: rest =>
    let run := rest.takeWhile isWordChar
    if run.length = 0 then none
    else
      match rest.drop run.length with
      | d :: _ => if d = ':' then some (run.length + 2) else none
      | [] => none
  | _ => none

/-- Python `re.findall` for a context-free pattern: scan left to right, record
each leftmost match and resume after it, otherwise advance one
character.  Fuel starts at the length of the text; all matchers return
lengths of at least two, so the fuel-zero branch is unreachable. -/
def findAllAux (m : Str → Option Nat) : Nat → Str → List Str
  | _, [] => []
  | 0, _ => []
  | fuel+1, c :: rest =>
    match m (c :: rest) with
    | some n => (c :: rest).take n :: findAllAux m fuel ((c :: rest).drop n)
    | none => findAllAux m fuel rest

def findAll (m : Str → Option Nat) (s : Str) : List Str :=
  findAllAux m s.length s

/-- Python `re.findall` for `\b[A-Z]\x7b2,5\x7d\b`, carrying the previous
character for the left word boundary.  A match requires: boundary on
the left (start of text or a non-word character), a maximal uppercase
run of length 2 to 5, and a boundary on the right (end of text or a
non-word character).  A longer uppercase run fails at every inner
position, exactly as the regex does. -/
def capsAux : Nat → Option Char → Str → List Str
  | _, _, [] => []
  | 0, _, _ => []
  | fuel+1, prev, c :: rest =>
    let boundaryBefore := match prev with
      | none => true
      | some p => !(isWordChar p)
    let run := (c :: rest).takeWhile Char.isUpper
    let u := run.length
    let afterOk := match (c :: rest).drop u with
      | [] => true
      | d :: _ => !(isWordChar d)
    if boundaryBefore && decide (2 ≤ u) && decide (u ≤ 5) && afterOk then
      run :: capsAux fuel run.getLast? ((c :: rest).drop u)
    else
      capsAux fuel (some c) rest

def capsFindAll (s : Str) : List Str :=
  capsAux s.length none s

/-- The token `__P<i>__` for index `i`. -/
def tokenChars (i : Nat) : Str :=
  ['_','_','P'] ++ Nat.toDigits 10 i ++ ['_','_']

/-- The eight context-free patterns of `_protect_placeholders`, in the
dictionary's insertion order; `caps` comes last and is handled by
`capsFindAll`. -/
def pyPatterns : List (Str → Option Nat) :=
  [curlyMatch, squareMatch, percentMatch, htmlMatch,
   urlMatch, mentionMatch, hashtagMatch, emojiMatch]

/-- State while protecting: current text, token table in insertion
order, next token index. -/
abbrev ProtectState := Str × List (Str × Str) × Nat

/-- The inner loop of `_protect_placeholders` for one pattern: for each
match found (on the text as it stood before this fold), allot a token,
record it, and replace every occurrence of the match in the current
text by the token. -/
def protectOne (st : ProtectState) (ms : List Str) : ProtectState :=
  ms.foldl
    (fun st m =>
      let tok := tokenChars st.2.2
      (replaceAll st.1 m tok, st.2.1 ++ [(tok, m)], st.2.2 + 1))
    st

/-- Source `_protect_placeholders(text)`: returns the protected text and the
token table (a Python dict keyed by the pairwise-distinct tokens, hence
an insertion-ordered association list). -/
def protectPlaceholders (text : Str) : Str × List (Str × Str) :=
  let st0 : ProtectState := (text, [], 0)
  let st1 := pyPatterns.foldl (fun st m => protectOne st (findAll m st.1)) st0
  let st2 := protectOne st1 (capsFindAll st1.1)
  (st2.1, st2.2.1)

/-- Source `_restore_placeholders(text, protected)`: literal token-to-original
substitution for every table entry, in insertion order. -/
def restorePlaceholders (text : Str) (table : List (Str × Str)) : Str :=
  table.foldl (fun t p => replaceAll t p.1 p.2) text

/-! ### Dictionaries

`AList` models a Python `dict` of strings as an association list in
insertion order with pairwise distinct keys; `dinsert` is
`d[k] = v` (overwrite in place, or append when the key is new). -/

abbrev AList := List (Str × Str)

/-- First-match lookup; on the dictionaries built below keys are
pairwise distinct, so this is Python `d.get(k)`. -/
def alookup (d : AList) (k : Str) : Option Str :=
  match d with
  | [] => none
  | (k', v) :: rest => if k' = k then some v else alookup rest k

/-- Python `d[k]` where the caller guarantees the key is present (Python would
raise `KeyError` otherwise); total with an empty-string default. -/
def dget (d : AList) (k : Str) : Str :=
  (alookup d k).getD []

/-- Python `d[k] = v` on an insertion-ordered dict: overwrite the existing
entry in place (keys are pairwise distinct in every dict built below,
so the first occurrence is the only one), else append. -/
def dinsert (d : AList) (k v : Str) : AList :=
  match d with
  | [] => [(k, v)]
  | p :: rest => if p.1 = k then (k, v) :: rest else p :: dinsert rest k v

/-! ### Parsed provider responses and request outcomes -/

/-- A parsed JSON value as `_translate_batch` discriminates it:
`json.loads` yields a string, a dict, or something else — the code only
tests `isinstance(parsed, dict)` and `isinstance(value, str)`, so all
non-dict non-string values behave identically and collapse into
`jother`. -/
inductive JValue where
  | jstr : Str → JValue
  | jdict : List (Str × JValue) → JValue
  | jother : JValue

/-- Python `parsed.get(k)` on the entry list of a parsed dict (`json.loads`
produces pairwise distinct keys, so first-match lookup is `dict.get`). -/
def jlookup (es : List (Str × JValue)) (k : Str) : Option JValue :=
  match es with
  | [] => none
  | (k', v) :: rest => if k' = k then some v else jlookup rest k

/-- The outcome of one `_try_request` call: the request raises (network
or provider error), or returns text whose `json.loads` either fails
(`none`) or yields a parsed value. -/
inductive ReqOutcome where
  | netFail : ReqOutcome
  | resp : Option JValue → ReqOutcome

/-- STEP 2 of `_translate_batch`: `parsed = \x7b\x7d`, then up to two
attempts; an exception from `_try_request` itself is not caught and
propagates (`Except.error`), while a `json.loads` failure falls through
to the next attempt, leaving `parsed` the empty dict after the last
one. -/
def attemptLoop (o1 o2 : ReqOutcome) : Except Unit JValue :=
  match o1 with
  | .netFail => .error ()
  | .resp (some v) => .ok v
  | .resp none =>
    match o2 with
    | .netFail => .error ()
    | .resp (some v) => .ok v
    | .resp none => .ok (.jdict [])

/-- Python `\x7bk: new_data[k] for k in batch_keys\x7d`. -/
def buildBatchDict (batchKeys : List Str) (newData : AList) : AList :=
  batchKeys.foldl (fun d k => dinsert d k (dget newData k)) []

/-- Python `parsed.get(key) if isinstance(parsed, dict) else None`. -/
def responseValue (parsed : JValue) (k : Str) : Option JValue :=
  match parsed with
  | .jdict es => jlookup es k
  | _ => none

/-- The test `not isinstance(translated_value, str) or not
translated_value.strip()` of STEP 3: the parsed response carries no
usable translation for `k` (not a dict, missing key, non-string value,
or a whitespace-only string). -/
def invalidResponseFor (parsed : JValue) (k : Str) : Bool :=
  match responseValue parsed k with
  | some (.jstr s) => isBlank s
  | some _ => true
  | none => true

/-- The value `_translate_batch` computes for one key in STEP 3: fall
back to the original value unless the response holds a non-blank string
for the key, then restore that key's placeholders on the result. -/
def batchValueFor (parsed : JValue) (k : Str) (orig : Str)
    (table : List (Str × Str)) : Str :=
  let tv : Str :=
    match responseValue parsed k with
    | some (.jstr s) => if isBlank s then orig else s
    | _ => orig
  restorePlaceholders tv table

/-- Source `_translate_batch(client, batch_keys, source, target)`, with the two
request outcomes supplied as data.  STEP 1 protects every value of
`batch_dict` (the guarded texts only feed the prompt; the per-key token
tables drive STEP 3).  An exception from a request propagates as
`Except.error`; otherwise the result maps every batch key, in
`batch_dict` order, to its translated-or-fallback restored value. -/
def translateBatch (batchKeys : List Str) (newData : AList)
    (o1 o2 : ReqOutcome) : Except Unit AList :=
  let batchDict := buildBatchDict batchKeys newData
  match attemptLoop o1 o2 with
  | .error e => .error e
  | .ok parsed =>
    .ok (batchDict.map (fun p =>
      (p.1, batchValueFor parsed p.1 p.2 (protectPlaceholders p.2).2)))

/-! ### Diff engine -/

/-- Source `_compare_json_files(old_data, new_data)`: the three classification
sets.  Python builds `set(...)` objects and lists them in unspecified
iteration order, so the result is modelled as finite sets. -/
structure CompareResult where
  new_keys : Finset Str
  obsolete_keys : Finset Str
  kept_keys : Finset Str
  deriving DecidableEq

def compareJsonFiles (oldData newData : AList) : CompareResult :=
  let oldKeys := (oldData.map Prod.fst).toFinset
  let newKeys := (newData.map Prod.fst).toFinset
  { new_keys := newKeys \ oldKeys
    obsolete_keys := oldKeys \ newKeys
    kept_keys := newKeys ∩ oldKeys }

/-! ### Batch planner -/

def BATCH_SIZE : Nat := 60

/-- Fuel-indexed worker for `chunks`; fuel starts at the list length and
each step consumes at least one element (the batch size is positive), so
the fuel-zero branch is unreachable. -/
def chunksAux (bs : Nat) : Nat → List α → List (List α)
  | _, [] => []
  | 0, _ => []
  | fuel+1, l => l.take bs :: chunksAux bs fuel (l.drop bs)

/-- Python `[lst[i : i + bs] for i in range(0, len(lst), bs)]` for a positive
batch size `bs`. -/
def chunks (bs : Nat) (l : List α) : List (List α) :=
  chunksAux bs l.length l

/-! ### Progress accounting -/

/-- The progress values reported inside the batch loop of
`_process_translation_batches`: each iteration adds the per-batch
increment to the running value, clamps it at 100, and reports it. -/
def batchProgress (inc : ℚ) : Nat → ℚ → List ℚ
  | 0, _ => []
  | n+1, c =>
    let c' := min (c + inc) 100
    c' :: batchProgress inc n c'

/-- All progress values reported during a run with `n` batches: the
initial front-loaded value `100 / (2 n)`, one value after each batch,
and the exact `100.0` set by `_show_translation_summary`. -/
def progressReports (n : Nat) : List ℚ :=
  let initial : ℚ := 100 / (2 * n)
  let inc : ℚ := (100 - initial) / n
  (initial :: batchProgress inc n initial) ++ [100]

/-! ### Token counters -/

/-- The per-batch update of the run's token counters.  `_translate_batch`
never reads `response.usage` and never touches `total_prompt_tokens` or
`total_completion_tokens`, so the provider-reported counts of the batch
are ignored and the counters pass through unchanged. -/
def batchCounterUpdate (counters : Nat × Nat) (_reported : Nat × Nat) :
    Nat × Nat :=
  counters

/-- The token counters at the end of `translate_keys`, given the
provider-reported (prompt, completion) counts of each request issued
during the run: reset to zero at the start, then folded through the
per-batch update. -/
def runTokenCounters (reported : List (Nat × Nat)) : Nat × Nat :=
  reported.foldl batchCounterUpdate (0, 0)

/-- The totals the spec predicts: componentwise sums of the
provider-reported counts. -/
def reportedSums (reported : List (Nat × Nat)) : Nat × Nat :=
  ((reported.map Prod.fst).sum, (reported.map Prod.snd).sum)

/-! ### The orchestrated run (`translate_keys`) -/

/-- The batch loop of `_process_translation_batches`: translate each
batch in order (batch `i` uses the request outcomes `outcomes i`) and
write each batch key into `result` — the translated value when
`translated_batch.get(key)` is a string, else the original `new_data`
value. -/
def processBatchesFrom (newData : AList) (outcomes : Nat → ReqOutcome × ReqOutcome)
    (i : Nat) (batches : List (List Str)) (result : AList) : Except Unit AList :=
  match batches with
  | [] => .ok result
  | b :: rest =>
    match translateBatch b newData (outcomes i).1 (outcomes i).2 with
    | .error e => .error e
    | .ok tb =>
      let result' := b.foldl
        (fun d k =>
          match alookup tb k with
          | some v => dinsert d k v
          | none => dinsert d k (dget newData k))
        result
      processBatchesFrom newData outcomes (i + 1) rest result'

/-- Source `_process_translation_batches`: raises when there are no batches,
else runs the batch loop. -/
def processTranslationBatches (newData : AList)
    (outcomes : Nat → ReqOutcome × ReqOutcome)
    (batches : List (List Str)) (result : AList) : Except Unit AList :=
  if batches.isEmpty then .error ()
  else processBatchesFrom newData outcomes 0 batches result

/-- Source `translate_keys`, as a function of the analysis result
(`old_data`, `new_data`, and the `kept_keys` / `new_keys` lists, whose
order Python's set iteration leaves unspecified), the selection state
(`selected_keys.get(k, True)`), and the request outcomes of each batch.
Returns the ordered output mapping that is serialized to the output
file, or an error when the run raises. -/
def translateKeys (oldData newData : AList)
    (keptKeys newKeysL : List Str) (selected : Str → Bool)
    (outcomes : Nat → ReqOutcome × ReqOutcome) : Except Unit AList :=
  let result0 := keptKeys.foldl (fun d k => dinsert d k (dget oldData k)) []
  let toTranslate := newKeysL.filter selected
  if toTranslate.isEmpty then .error ()
  else
    let batches := chunks BATCH_SIZE toTranslate
    match processTranslationBatches newData outcomes batches result0 with
    | .error e => .error e
    | .ok result1 =>
      let result2 := newKeysL.foldl
        (fun d k => if selected k then d else dinsert d k (dget newData k))
        result1
      let newOrder := newData.map Prod.fst
      .ok (newOrder.filterMap (fun k =>
        match alookup result2 k with
        | some v => some (k, v)
        | none => none))

/-! ## Concrete texts used in the theorems -/

/-- Applying protect and then restore with the returned table. -/
def protectRestore (t : Str) : Str :=
  restorePlaceholders (protectPlaceholders t).1 (protectPlaceholders t).2

/-- The token-shape marker: a text free of `__P` contains no token. -/
def tokenMarker : Str := ['_','_','P']

def txtCurly : Str := ['H','e','l','l','o',' ','{','n','a','m','e','}','!']

def txtSquare : Str := ['P','r','e','s','s',' ','[','O','K',']',' ','n','o','w']

def txtPercent : Str := ['S','a','v','e',' ','%','s',' ','f','i','l','e']

def txtHtml : Str := ['a',' ','<','b','>','b','o','l','d','<','/','b','>',' ','x']

def txtUrl : Str :=
  ['g','o',' ','h','t','t','p','s',':','/','/','x','.','c','o','m',' ','n','o','w']

def txtMention : Str := ['p','i','n','g',' ','@','u','s','e','r',' ','o','k']

def txtHashtag : Str := ['t','a','g',' ','#','p','r','o','m','o',' ','e','n','d']

def txtEmoji : Str := ['n','i','c','e',' ',':','s','m','i','l','e',':',' ','y','e','s']

def txtCaps : Str := ['u','s','e',' ','t','h','e',' ','A','P','I',' ','n','o','w']

/-- The spec scenario `Hello {name}, visit https://x.com #promo`. -/
def txtCombined : Str :=
  ['H','e','l','l','o',' ','{','n','a','m','e','}',',',' ','v','i','s','i','t',' ',
   'h','t','t','p','s',':','/','/','x','.','c','o','m',' ','#','p','r','o','m','o']

/-- A square template enclosing a curly template: `[a {b} c]`. -/
def txtNested : Str := ['[','a',' ','{','b','}',' ','c',']']

/-- The same curly template twice: `{a} {a}`. -/
def txtDup : Str := ['{','a','}',' ','{','a','}']

/-- A value whose text already contains a (non-token-shaped) fragment
that collides with the first allotted token: `{a} __P0__` — note
`__P0__` here is raw text of the value, not a token. -/
def txtCollide : Str := ['{','a','}',' ','_','_','P','0','_','_']

/-! ## Lemmas about replacement and restoration -/

theorem occursIn_false_of_cons {pat : Str} {c : Char} {rest : Str}
    (h : occursIn pat (c :: rest) = false) :
    pat.isPrefixOf (c :: rest) = false ∧ occursIn pat rest = false := by
  simpa [occursIn, Bool.or_eq_false_iff] using h

theorem replaceAllAux_of_not_occurs {pat rep : Str} :
    ∀ (fuel : Nat) (s : Str), occursIn pat s = false →
      replaceAllAux fuel s pat rep = s := by
  intro fuel
  induction fuel with
  | zero => intro s _; cases s <;> rfl
  | succ f ih =>
    intro s hs
    cases s with
    | nil => rfl
    | cons c rest =>
      obtain ⟨h1, h2⟩ := occursIn_false_of_cons hs
      simp [replaceAllAux, h1, ih rest h2]

/-- If the pattern does not occur in the text, `str.replace` leaves the
text unchanged. -/
theorem replaceAll_of_not_occurs {pat rep s : Str}
    (h : occursIn pat s = false) : replaceAll s pat rep = s := by
  unfold replaceAll
  split
  · rfl
  · exact replaceAllAux_of_not_occurs s.length s h

/-- If no token of the table occurs in the text, restoration leaves the
text unchanged. -/
theorem restore_of_not_occurs :
    ∀ (table : List (Str × Str)) (s : Str),
      (∀ p ∈ table, occursIn p.1 s = false) →
      restorePlaceholders s table = s := by
  intro table
  induction table with
  | nil => intro s _; rfl
  | cons p rest ih =>
    intro s h
    have h1 : replaceAll s p.1 p.2 = s :=
      replaceAll_of_not_occurs (h p (List.mem_cons_self p rest))
    have h2 : ∀ q ∈ rest, occursIn q.1 s = false := fun q hq =>
      h q (List.mem_cons_of_mem p hq)
    simpa [restorePlaceholders, h1] using ih s h2

/-! ## Lemmas about dictionaries -/

theorem alookup_isSome_iff_mem {d : AList} {k : Str} :
    (alookup d k).isSome = true ↔ k ∈ d.map Prod.fst := by
  induction d with
  | nil => simp [alookup]
  | cons p rest ih =>
    by_cases h : p.1 = k
    · simp [alookup, h]
    · simp [alookup, h, ih, Ne.symm h]

theorem alookup_dinsert_self {d : AList} {k : Str} {v : Str} :
    alookup (dinsert d k v) k = some v := by
  induction d with
  | nil => simp [dinsert, alookup]
  | cons p rest ih =>
    by_cases h : p.1 = k
    · simp [dinsert, h, alookup]
    · simp [dinsert, h, alookup, ih]

theorem alookup_dinsert_other {d : AList} {k k' : Str} {v : Str}
    (hne : k' ≠ k) : alookup (dinsert d k v) k' = alookup d k' := by
  have hkk' : ¬ (k = k') := fun hh => hne (Eq.symm hh)
  induction d with
  | nil => simp [dinsert, alookup, hkk']
  | cons p rest ih =>
    by_cases h : p.1 = k
    · have hpk : ¬ (p.1 = k') := by rw [h]; exact hkk'
      simp [dinsert, h, alookup, hkk', hpk]
    · by_cases h' : p.1 = k'
      · simp [dinsert, h, alookup, h', hne]
      · simp [dinsert, h, alookup, h', ih]

theorem mem_keys_dinsert {d : AList} {k k' : Str} {v : Str} :
    k' ∈ (dinsert d k v).map Prod.fst ↔ k' = k ∨ k' ∈ d.map Prod.fst := by
  constructor
  · intro h
    by_cases he : k' = k
    · exact Or.inl he
    · refine Or.inr ?_
      rw [← alookup_isSome_iff_mem] at h ⊢
      rwa [alookup_dinsert_other he] at h
  · intro h
    rw [← alookup_isSome_iff_mem]
    rcases h with h | h
    · subst h; simp [alookup_dinsert_self]
    · by_cases he : k' = k
      · subst he; simp [alookup_dinsert_self]
      · rw [alookup_dinsert_other he]
        exact alookup_isSome_iff_mem.mpr h

/-! ## Lemmas about batching -/

theorem chunksAux_join {α : Type} {bs : Nat} (hbs : 1 ≤ bs) :
    ∀ (fuel : Nat) (l : List α), l.length ≤ fuel →
      (chunksAux bs fuel l).flatten = l := by
  intro fuel
  induction fuel with
  | zero =>
    intro l hl
    have hnil : l = [] := List.length_eq_zero.mp (Nat.le_zero.mp hl)
    subst hnil; rfl
  | succ f ih =>
    intro l hl
    cases l with
    | nil => rfl
    | cons c rest =>
      have hdrop : ((c :: rest).drop bs).length ≤ f := by
        simp only [List.length_drop, List.length_cons] at *
        omega
      simp [chunksAux, ih _ hdrop]

theorem chunks_join {α : Type} {bs : Nat} (hbs : 1 ≤ bs) (l : List α) :
    (chunks bs l).flatten = l :=
  chunksAux_join hbs l.length l (Nat.le_refl _)

theorem chunksAux_length_le {α : Type} {bs : Nat} :
    ∀ (fuel : Nat) (l : List α) (b : List α), b ∈ chunksAux bs fuel l →
      b.length ≤ bs := by
  intro fuel
  induction fuel with
  | zero => intro l b hb; cases l <;> simp [chunksAux] at hb
  | succ f ih =>
    intro l b hb
    cases l with
    | nil => simp [chunksAux] at hb
    | cons c rest =>
      simp only [chunksAux, List.mem_cons] at hb
      rcases hb with hb | hb
      · subst hb; exact List.length_take_le bs (c :: rest)
      · exact ih _ b hb

theorem chunksAux_eq_nil_iff {α : Type} {bs : Nat} {fuel : Nat} {l : List α}
    (hfuel : l.length ≤ fuel) : chunksAux bs fuel l = [] ↔ l = [] := by
  cases l with
  | nil => cases fuel <;> simp [chunksAux]
  | cons c rest =>
    cases fuel with
    | zero => simp at hfuel
    | succ f => simp [chunksAux]

theorem chunksAux_dropLast_length {α : Type} {bs : Nat} (hbs : 1 ≤ bs) :
    ∀ (fuel : Nat) (l : List α), l.length ≤ fuel →
      ∀ b ∈ (chunksAux bs fuel l).dropLast, b.length = bs := by
  intro fuel
  induction fuel with
  | zero =>
    intro l hl b hb
    have hnil : l = [] := List.length_eq_zero.mp (Nat.le_zero.mp hl)
    subst hnil; simp [chunksAux] at hb
  | succ f ih =>
    intro l hl b hb
    cases l with
    | nil => simp [chunksAux] at hb
    | cons c rest =>
      simp only [chunksAux] at hb
      have hlen : ((c :: rest).drop bs).length ≤ f := by
        simp only [List.length_drop, List.length_cons] at *
        omega
      cases htail : chunksAux bs f ((c :: rest).drop bs) with
      | nil => rw [htail] at hb; simp at hb
      | cons c' cs =>
        have hdropne : (c :: rest).drop bs ≠ [] := by
          intro hcon
          rw [(chunksAux_eq_nil_iff hlen).mpr hcon] at htail
          exact List.noConfusion htail
        rw [htail] at hb
        simp only [List.dropLast, List.mem_cons] at hb
        rcases hb with hb | hb
        · subst hb
          have hle : bs ≤ (c :: rest).length := by
            by_contra hcon
            push_neg at hcon
            exact hdropne (List.drop_eq_nil_of_le (Nat.le_of_lt hcon))
          have hmin := List.length_take bs (c :: rest)
          simp only [List.length_cons] at hle hmin ⊢
          omega
        · rw [← htail] at hb
          exact ih _ hlen b hb

/-! ## Lemmas about dictionary folds -/

theorem dinsert_keys_of_not_mem {d : AList} {k : Str} {v : Str}
    (h : alookup d k = none) :
    (dinsert d k v).map Prod.fst = d.map Prod.fst ++ [k] := by
  induction d with
  | nil => rfl
  | cons p rest ih =>
    by_cases hp : p.1 = k
    · simp [alookup, hp] at h
    · simp only [alookup, hp, if_false] at h
      simp [dinsert, hp, ih h]

theorem foldl_dinsert_fresh {f : Str → Str} :
    ∀ (ks : List Str) (d : AList), (∀ k ∈ ks, alookup d k = none) → ks.Nodup →
      ((ks.foldl (fun d k => dinsert d k (f k)) d).map Prod.fst) =
        d.map Prod.fst ++ ks := by
  intro ks
  induction ks with
  | nil => intro d _ _; simp
  | cons k rest ih =>
    intro d hfresh hnd
    have hk : alookup d k = none := hfresh k (List.mem_cons_self k rest)
    have hnd' : rest.Nodup := (List.nodup_cons.mp hnd).2
    have hknotin : k ∉ rest := (List.nodup_cons.mp hnd).1
    have hfresh' : ∀ k' ∈ rest, alookup (dinsert d k (f k)) k' = none := by
      intro k' hk'
      have hne : k' ≠ k := fun hh => hknotin (hh ▸ hk')
      rw [alookup_dinsert_other hne]
      exact hfresh k' (List.mem_cons_of_mem k hk')
    calc ((rest.foldl (fun d k => dinsert d k (f k)) (dinsert d k (f k))).map
            Prod.fst)
        = (dinsert d k (f k)).map Prod.fst ++ rest := ih _ hfresh' hnd'
      _ = (d.map Prod.fst ++ [k]) ++ rest := by rw [dinsert_keys_of_not_mem hk]
      _ = d.map Prod.fst ++ (k :: rest) := by simp

/-- With pairwise distinct batch keys, `batch_dict` lists exactly the
batch keys, in order. -/
theorem buildBatchDict_keys {ks : List Str} {data : AList}
    (hnd : ks.Nodup) : (buildBatchDict ks data).map Prod.fst = ks := by
  have h := @foldl_dinsert_fresh (fun k => dget data k) ks []
    (by intro k _; rfl) hnd
  simp only [List.map_nil, List.nil_append] at h
  exact h

theorem foldl_dinsert_lookup_of_not_mem {f : Str → Str} :
    ∀ (ks : List Str) (d : AList) (k : Str), k ∉ ks →
      alookup (ks.foldl (fun d k' => dinsert d k' (f k')) d) k = alookup d k := by
  intro ks
  induction ks with
  | nil => intro d k _; rfl
  | cons k' rest ih =>
    intro d k hk
    have hne : k ≠ k' := fun hh => hk (hh ▸ List.mem_cons_self k' rest)
    have hrest : k ∉ rest := fun hh => hk (List.mem_cons_of_mem k' hh)
    rw [List.foldl_cons, ih _ k hrest, alookup_dinsert_other hne]

theorem foldl_dinsert_lookup_mem {f : Str → Str} :
    ∀ (ks : List Str) (d : AList) (k : Str), k ∈ ks →
      alookup (ks.foldl (fun d k' => dinsert d k' (f k')) d) k = some (f k) := by
  intro ks
  induction ks with
  | nil => intro d k hd; simp at hd
  | cons k' rest ih =>
    intro d k hd
    by_cases hmem : k ∈ rest
    · rw [List.foldl_cons]
      exact ih _ k hmem
    · have hkk' : k = k' := by
        rcases List.mem_cons.mp hd with h | h
        · exact h
        · exact absurd h hmem
      subst hkk'
      rw [List.foldl_cons, foldl_dinsert_lookup_of_not_mem rest _ k hmem,
        alookup_dinsert_self]

/-- The entry `batch_dict[k]` is the `new_data` value of `k` for every batch key
`k`. -/
theorem buildBatchDict_lookup {ks : List Str} {data : AList} {k : Str}
    (hk : k ∈ ks) :
    alookup (buildBatchDict ks data) k = some (dget data k) :=
  foldl_dinsert_lookup_mem ks [] k hk

/-- Looking up a key in a value-mapped dictionary. -/
theorem alookup_map_value {g : Str → Str → Str} :
    ∀ (d : AList) (k : Str),
      alookup (d.map (fun p => (p.1, g p.1 p.2))) k =
        (alookup d k).map (fun v => g k v) := by
  intro d
  induction d with
  | nil => intro k; rfl
  | cons p rest ih =>
    intro k
    by_cases h : p.1 = k
    · subst h; simp [alookup]
    · simp [alookup, h, ih]

theorem foldl_keys_sub {step : AList → Str → AList}
    (hstep : ∀ d k, ∃ v, step d k = dinsert d k v ∨ step d k = d) :
    ∀ (l : List Str) (d : AList) (k0 : Str),
      k0 ∈ d.map Prod.fst → k0 ∈ (l.foldl step d).map Prod.fst := by
  intro l
  induction l with
  | nil => intro d k0 h; exact h
  | cons k rest ih =>
    intro d k0 h
    rw [List.foldl_cons]
    refine ih _ k0 ?_
    obtain ⟨v, hv | hv⟩ := hstep d k
    · rw [hv]; exact mem_keys_dinsert.mpr (Or.inr h)
    · rw [hv]; exact h

theorem foldl_dinsert_cover {step : AList → Str → AList}
    (hstep : ∀ d k, ∃ v, step d k = dinsert d k v) :
    ∀ (l : List Str) (d : AList) (k0 : Str),
      k0 ∈ l → k0 ∈ (l.foldl step d).map Prod.fst := by
  intro l
  induction l with
  | nil => intro d k0 h; simp at h
  | cons k rest ih =>
    intro d k0 h
    rw [List.foldl_cons]
    rcases List.mem_cons.mp h with h | h
    · subst h
      refine foldl_keys_sub (fun d k => ⟨(hstep d k).choose,
        Or.inl (hstep d k).choose_spec⟩) rest _ k0 ?_
      obtain ⟨v, hv⟩ := hstep d k0
      rw [hv]
      exact mem_keys_dinsert.mpr (Or.inl rfl)
    · exact ih _ k0 h

/-! ## Lemmas about the batch loop -/

/-- The per-key write step of the batch loop always performs a dict
assignment for its key. -/
theorem batchApply_step_dinsert (tb newData : AList) :
    ∀ (d : AList) (k : Str), ∃ v,
      (match alookup tb k with
        | some v => dinsert d k v
        | none => dinsert d k (dget newData k)) = dinsert d k v := by
  intro d k
  cases h : alookup tb k with
  | none => exact ⟨dget newData k, rfl⟩
  | some v => exact ⟨v, rfl⟩

/-- Keys already present survive the batch loop, and every key of every
batch is present afterwards. -/
theorem processBatchesFrom_ok_keys {newData : AList}
    {oc : Nat → ReqOutcome × ReqOutcome} :
    ∀ (batches : List (List Str)) (i : Nat) (r r' : AList),
      processBatchesFrom newData oc i batches r = .ok r' →
      ∀ k0, (k0 ∈ r.map Prod.fst ∨ k0 ∈ batches.flatten) →
        k0 ∈ r'.map Prod.fst := by
  intro batches
  induction batches with
  | nil =>
    intro i r r' hok k0 hk0
    simp only [processBatchesFrom] at hok
    cases hok
    simpa using hk0
  | cons b rest ih =>
    intro i r r' hok k0 hk0
    simp only [processBatchesFrom] at hok
    cases htb : translateBatch b newData (oc i).1 (oc i).2 with
    | error e => rw [htb] at hok; exact Except.noConfusion hok
    | ok tb =>
      rw [htb] at hok
      refine ih (i + 1) _ r' hok k0 ?_
      rcases hk0 with hk0 | hk0
      · exact Or.inl (foldl_keys_sub
          (fun d k => ⟨(batchApply_step_dinsert tb newData d k).choose,
            Or.inl (batchApply_step_dinsert tb newData d k).choose_spec⟩)
          b r k0 hk0)
      · rw [List.flatten_cons, List.mem_append] at hk0
        rcases hk0 with hk0 | hk0
        · exact Or.inl (foldl_dinsert_cover
            (batchApply_step_dinsert tb newData) b r k0 hk0)
        · exact Or.inr hk0

/-! ## Lemmas about progress accounting -/

theorem batchProgress_length (inc : ℚ) :
    ∀ (n : Nat) (c : ℚ), (batchProgress inc n c).length = n := by
  intro n
  induction n with
  | zero => intro c; rfl
  | succ m ih => intro c; simp [batchProgress, ih]

theorem batchProgress_get {inc : ℚ} (hinc : 0 ≤ inc) :
    ∀ (n : Nat) (c : ℚ) (j : Nat), j < n →
      (batchProgress inc n c).get? j = some (min (c + (j + 1) * inc) 100) := by
  intro n
  induction n with
  | zero => intro c j hj; omega
  | succ m ih =>
    intro c j hj
    cases j with
    | zero => simp [batchProgress]
    | succ j' =>
      have hj' : j' < m := by omega
      rw [show batchProgress inc (m + 1) c =
        min (c + inc) 100 :: batchProgress inc m (min (c + inc) 100) from rfl]
      rw [List.get?_cons_succ, ih _ j' hj']
      rcases le_or_lt (c + inc) 100 with hle | hlt
      · rw [min_eq_left hle]
        congr 1
        push_cast
        ring
      · have hmono : (0 : ℚ) ≤ (j' + 1 + 1) * inc := by positivity
        have h1 : min ((min (c + inc) 100) + (↑j' + 1) * inc) 100 = 100 := by
          rw [min_eq_right hlt.le]
          refine min_eq_right ?_
          have : (0 : ℚ) ≤ (↑j' + 1) * inc := by positivity
          linarith
        have h2 : min (c + (↑(j' + 1) + 1) * inc) 100 = 100 := by
          refine min_eq_right ?_
          have hth : (1 : ℚ) ≤ ↑(j' + 1) + 1 := by
            have : (0 : ℚ) ≤ (j' + 1 : Nat) := Nat.cast_nonneg _
            linarith
          nlinarith
        rw [h1, h2]

theorem batchProgress_all_le (inc : ℚ) :
    ∀ (n : Nat) (c : ℚ), ∀ x ∈ batchProgress inc n c, x ≤ 100 := by
  intro n
  induction n with
  | zero => intro c x hx; simp [batchProgress] at hx
  | succ m ih =>
    intro c x hx
    simp only [batchProgress, List.mem_cons] at hx
    rcases hx with hx | hx
    · subst hx; exact min_le_right _ _
    · exact ih _ x hx

theorem batchProgress_chain {inc : ℚ} (hinc : 0 ≤ inc) :
    ∀ (n : Nat) (c : ℚ), c ≤ 100 →
      List.Chain' (· ≤ ·) (c :: batchProgress inc n c) := by
  intro n
  induction n with
  | zero => intro c _; simp [batchProgress]
  | succ m ih =>
    intro c hc
    rw [show batchProgress inc (m + 1) c =
      min (c + inc) 100 :: batchProgress inc m (min (c + inc) 100) from rfl]
    refine List.chain'_cons.mpr ⟨le_min (by linarith) hc, ?_⟩
    exact ih _ (min_le_right _ _)

/-! ## Lemmas about the final assembly -/

/-- The step of the skipped-keys loop of `translate_keys` either leaves
the dict alone or performs a dict assignment. -/
theorem skipStep_cases (selected : Str → Bool) (f : Str → Str) :
    ∀ (d : AList) (k : Str), ∃ v,
      (if selected k then d else dinsert d k (f k)) = dinsert d k v ∨
      (if selected k then d else dinsert d k (f k)) = d := by
  intro d k
  cases hsel : selected k with
  | true => exact ⟨f k, Or.inr (by simp)⟩
  | false => exact ⟨f k, Or.inl (by simp)⟩

/-- A key of the list that the selection excludes is present after the
skipped-keys loop. -/
theorem foldl_cond_cover {selected : Str → Bool} {f : Str → Str} :
    ∀ (l : List Str) (d : AList) (k : Str), k ∈ l → selected k = false →
      k ∈ (l.foldl
        (fun d k' => if selected k' then d else dinsert d k' (f k'))
        d).map Prod.fst := by
  intro l
  induction l with
  | nil => intro d k h _; simp at h
  | cons k' rest ih =>
    intro d k h hsel
    rw [List.foldl_cons]
    rcases List.mem_cons.mp h with h | h
    · subst h
      refine foldl_keys_sub (skipStep_cases selected f) rest _ k ?_
      rw [hsel]
      simp only [Bool.false_eq_true, if_false]
      exact mem_keys_dinsert.mpr (Or.inl rfl)
    · exact ih _ k h hsel

/-- The output comprehension of `translate_keys` keeps every key that is
present in the result dict, in the order of the enumerated keys. -/
theorem filterMap_alookup_keys :
    ∀ (l : List Str) (d : AList), (∀ k ∈ l, (alookup d k).isSome = true) →
      (l.filterMap (fun k =>
        match alookup d k with
        | some v => some (k, v)
        | none => none)).map Prod.fst = l := by
  intro l
  induction l with
  | nil => intro d _; rfl
  | cons k rest ih =>
    intro d h
    have hk := h k (List.mem_cons_self k rest)
    obtain ⟨v, hv⟩ := Option.isSome_iff_exists.mp hk
    rw [List.filterMap_cons, hv]
    simp only [List.map_cons]
    rw [ih d (fun k' hk' => h k' (List.mem_cons_of_mem k hk'))]

/-- With both request outcomes returning unparseable text for every
batch, every batch still succeeds and the loop completes. -/
theorem processBatchesFrom_resp_none_ok {nd : AList} :
    ∀ (batches : List (List Str)) (i : Nat) (r : AList),
      ∃ r', processBatchesFrom nd (fun _ => (.resp none, .resp none)) i
        batches r = .ok r' := by
  intro batches
  induction batches with
  | nil => intro i r; exact ⟨r, rfl⟩
  | cons b rest ih =>
    intro i r
    simp only [processBatchesFrom, translateBatch, attemptLoop]
    exact ih (i + 1) _

/-! ## The claims -/

/-- C1 (counterexample): the round trip `restore(protect(text))` is NOT
the identity on every text free of token-shaped substrings: on
`[a {b} c]` (which contains no `__P`, hence no token shape) the square
pattern's match encloses the token already substituted for `{b}`, and
the forward-order restoration returns `[a __P0__ c]` instead of the
original text. -/
theorem protect_restore_fails_on_nested_templates :
    occursIn tokenMarker txtNested = false ∧
    protectRestore txtNested =
      ['[','a',' ','_','_','P','0','_','_',' ','c',']'] ∧
    protectRestore txtNested ≠ txtNested := by
  refine ⟨by decide, by decide, by decide⟩

/-- C1 (amended): `restore(protect(text)) = text` holds for
representative token-free texts of each pattern category individually —
curly and square templates, percent specifiers, HTML tags, URLs,
mentions, hashtags, emoji codes, and uppercase acronyms — and for the
spec's combined scenario text, though not for every token-free text
(see the counterexample). -/
theorem protect_restore_identity_on_category_examples :
    (occursIn tokenMarker txtCurly = false ∧ protectRestore txtCurly = txtCurly) ∧
    (occursIn tokenMarker txtSquare = false ∧ protectRestore txtSquare = txtSquare) ∧
    (occursIn tokenMarker txtPercent = false ∧ protectRestore txtPercent = txtPercent) ∧
    (occursIn tokenMarker txtHtml = false ∧ protectRestore txtHtml = txtHtml) ∧
    (occursIn tokenMarker txtUrl = false ∧ protectRestore txtUrl = txtUrl) ∧
    (occursIn tokenMarker txtMention = false ∧ protectRestore txtMention = txtMention) ∧
    (occursIn tokenMarker txtHashtag = false ∧ protectRestore txtHashtag = txtHashtag) ∧
    (occursIn tokenMarker txtEmoji = false ∧ protectRestore txtEmoji = txtEmoji) ∧
    (occursIn tokenMarker txtCaps = false ∧ protectRestore txtCaps = txtCaps) ∧
    (occursIn tokenMarker txtCombined = false ∧
      protectRestore txtCombined = txtCombined ∧
      (protectPlaceholders txtCombined).2.length = 3) := by
  exact ⟨by decide, by decide, by decide, by decide, by decide, by decide,
    by decide, by decide, by decide, by decide, by decide, by decide⟩

/-- C5 (counterexample): when the same literal substring matches twice,
the two occurrences do NOT get distinct tokens: protecting `{a} {a}`
replaces both occurrences by `__P0__` (the `str.replace` call for the
first match already replaces every occurrence), and the second token
`__P1__` recorded in the table does not occur in the protected text at
all. -/
theorem duplicate_occurrences_share_one_token :
    (protectPlaceholders txtDup).1 =
      tokenChars 0 ++ [' '] ++ tokenChars 0 ∧
    (protectPlaceholders txtDup).2 =
      [(tokenChars 0, ['{','a','}']), (tokenChars 1, ['{','a','}'])] ∧
    occursIn (tokenChars 1) (protectPlaceholders txtDup).1 = false := by
  refine ⟨by decide, by decide, by decide⟩

/-- C5 (amended): every occurrence of a repeatedly matched literal is
replaced by the one token allotted to its first match; a fresh token is
still allocated and recorded in the table for each further match of the
same literal (mapping to that substring) but is absent from the
protected text, and restoration still recovers the original text
here. -/
theorem duplicate_match_token_allocation :
    (protectPlaceholders txtDup).2.map Prod.snd =
      [['{','a','}'], ['{','a','}']] ∧
    occursIn (tokenChars 0) (protectPlaceholders txtDup).1 = true ∧
    occursIn (tokenChars 1) (protectPlaceholders txtDup).1 = false ∧
    protectRestore txtDup = txtDup := by
  refine ⟨by decide, by decide, by decide, by decide⟩

/-- C2: the run's token counters are reset to zero at the start of
`translate_keys` but never incremented afterwards — no code reads
`response.usage` — so after any run they are `(0, 0)` rather than the
sums of the provider-reported counts; e.g. a single request reported as
(10 prompt, 5 completion) tokens leaves the counters at `(0, 0)` while
the claimed value is `(10, 5)`. -/
theorem run_token_counters_stay_zero :
    (∀ reported : List (Nat × Nat), runTokenCounters reported = (0, 0)) ∧
    runTokenCounters [(10, 5)] = (0, 0) ∧
    reportedSums [(10, 5)] = (10, 5) ∧
    ((0, 0) : Nat × Nat) ≠ ((10, 5) : Nat × Nat) := by
  have hfold : ∀ (l : List (Nat × Nat)) (a : Nat × Nat),
      l.foldl batchCounterUpdate a = a := by
    intro l
    induction l with
    | nil => intro a; rfl
    | cons x xs ih => intro a; exact ih a
  exact ⟨fun reported => hfold reported (0, 0), rfl, rfl, by decide⟩

/-- C7: for all inputs the three classification sets of
`_compare_json_files` are pairwise disjoint, their union is the union
of the two key sets, and an empty old file makes every new-file key a
new key with no obsolete keys. -/
theorem compare_classification_partition (oldData newData : AList) :
    Disjoint (compareJsonFiles oldData newData).new_keys
      (compareJsonFiles oldData newData).obsolete_keys ∧
    Disjoint (compareJsonFiles oldData newData).new_keys
      (compareJsonFiles oldData newData).kept_keys ∧
    Disjoint (compareJsonFiles oldData newData).obsolete_keys
      (compareJsonFiles oldData newData).kept_keys ∧
    (compareJsonFiles oldData newData).new_keys ∪
      (compareJsonFiles oldData newData).obsolete_keys ∪
      (compareJsonFiles oldData newData).kept_keys =
      (oldData.map Prod.fst).toFinset ∪ (newData.map Prod.fst).toFinset ∧
    (oldData = [] →
      (compareJsonFiles oldData newData).new_keys =
        (newData.map Prod.fst).toFinset ∧
      (compareJsonFiles oldData newData).obsolete_keys = ∅) := by
  simp only [compareJsonFiles]
  refine ⟨?_, ?_, ?_, ?_, ?_⟩
  · exact disjoint_sdiff_sdiff
  · rw [Finset.disjoint_left]
    intro a ha hb
    rw [Finset.mem_sdiff] at ha
    rw [Finset.mem_inter] at hb
    exact ha.2 hb.2
  · rw [Finset.disjoint_left]
    intro a ha hb
    rw [Finset.mem_sdiff] at ha
    rw [Finset.mem_inter] at hb
    exact ha.2 hb.1
  · ext a
    simp only [Finset.mem_union, Finset.mem_sdiff, Finset.mem_inter]
    tauto
  · intro h
    subst h
    simp

/-- C7 (witness): applied to an empty old file and a concrete new
file. -/
theorem compare_classification_partition_witness :
    (compareJsonFiles [] [(['a'], ['1']), (['b'], ['2'])]).new_keys =
      (([(['a'], ['1']), (['b'], ['2'])] : AList).map Prod.fst).toFinset ∧
    (compareJsonFiles [] [(['a'], ['1']), (['b'], ['2'])]).obsolete_keys = ∅ :=
  (compare_classification_partition [] [(['a'], ['1']), (['b'], ['2'])]).2.2.2.2 rfl

set_option maxRecDepth 4000 in
/-- C8: concatenating the batches reproduces the selected key sequence
exactly, no batch exceeds `BATCH_SIZE = 60` keys, every batch except
possibly the last is full, and 130 keys produce 3 batches of sizes 60,
60, 10. -/
theorem batch_partition_correct {α : Type} (l : List α) :
    (chunks BATCH_SIZE l).flatten = l ∧
    (∀ b ∈ chunks BATCH_SIZE l, b.length ≤ BATCH_SIZE) ∧
    (∀ b ∈ (chunks BATCH_SIZE l).dropLast, b.length = BATCH_SIZE) ∧
    (chunks BATCH_SIZE (List.range 130)).map List.length = [60, 60, 10] := by
  refine ⟨chunks_join (by decide) l, ?_, ?_, by decide⟩
  · intro b hb
    simp only [chunks] at hb
    exact chunksAux_length_le l.length l b hb
  · intro b hb
    simp only [chunks] at hb
    exact chunksAux_dropLast_length (by decide) l.length l (Nat.le_refl _) b hb

/-- C8 (witness): applied to the 130-key scenario. -/
theorem batch_partition_correct_witness :
    (chunks BATCH_SIZE (List.range 130)).flatten = List.range 130 :=
  (batch_partition_correct (List.range 130)).1

/-- C3 (counterexample): a network failure is NOT retried: when the
first request of a batch raises and the second would return a perfectly
valid response, `_translate_batch` propagates the exception (only
`json.loads` failures are caught inside the retry loop), so the batch
does not fall back and the whole run fails. -/
theorem network_failure_not_retried :
    translateBatch [['k']] [(['k'], ['v'])] .netFail
      (.resp (some (.jdict [(['k'], .jstr ['w'])]))) = .error () := by
  rfl

/-- C3 (amended): per batch, a malformed structured response is retried
once — the retry's parsed response is used exactly as a first-attempt
success would be — and if the retry is also malformed the batch
succeeds with every key falling back to its original (restored) source
value, so a run whose responses are all malformed still completes;
but a request that raises (network/provider error) is not retried and
fails the whole batch, hence the run, immediately. -/
theorem batch_retry_and_fallback (batchKeys : List Str) (newData : AList)
    (o2 : ReqOutcome) (v : JValue) :
    (translateBatch batchKeys newData (.resp none) (.resp (some v)) =
      translateBatch batchKeys newData (.resp (some v)) o2) ∧
    (translateBatch batchKeys newData (.resp none) (.resp none) =
      .ok ((buildBatchDict batchKeys newData).map (fun p =>
        (p.1, restorePlaceholders p.2 (protectPlaceholders p.2).2)))) ∧
    (translateBatch batchKeys newData .netFail o2 = .error ()) ∧
    (∀ (oldData : AList) (keptKeys newKeysL : List Str)
        (selected : Str → Bool),
      (newKeysL.filter selected).isEmpty = false →
      ∃ out, translateKeys oldData newData keptKeys newKeysL selected
        (fun _ => (.resp none, .resp none)) = .ok out) := by
  refine ⟨rfl, rfl, rfl, ?_⟩
  intro oldData keptKeys newKeysL selected hne
  have hTne : newKeysL.filter selected ≠ [] := by
    intro hcon
    rw [hcon] at hne
    exact Bool.noConfusion hne
  have hbne : (chunks BATCH_SIZE (newKeysL.filter selected)).isEmpty = false := by
    have h1 : chunks BATCH_SIZE (newKeysL.filter selected) ≠ [] := by
      intro hcon
      exact hTne ((chunksAux_eq_nil_iff (Nat.le_refl _)).mp hcon)
    cases h : chunks BATCH_SIZE (newKeysL.filter selected) with
    | nil => exact absurd h h1
    | cons _ _ => rfl
  obtain ⟨r', hr'⟩ := @processBatchesFrom_resp_none_ok newData
    (chunks BATCH_SIZE (newKeysL.filter selected)) 0
    (keptKeys.foldl (fun d k => dinsert d k (dget oldData k)) [])
  simp only [translateKeys, hne, Bool.false_eq_true, if_false,
    processTranslationBatches, hbne, hr']
  exact ⟨_, rfl⟩

/-- C3 (witness): a one-key run whose only batch gets two malformed
responses completes successfully. -/
theorem batch_retry_and_fallback_witness :
    ∃ out, translateKeys [] [(['b'], ['2'])] [] [['b']] (fun _ => true)
      (fun _ => (.resp none, .resp none)) = .ok out :=
  (batch_retry_and_fallback [['b']] [(['b'], ['2'])] (.resp none)
    .jother).2.2.2 [] [] [['b']] (fun _ => true) (by decide)

/-- C9: with `n ≥ 1` batches the reported progress starts at
`100 / (2 n)`, equals `initial + i · ((100 − initial) / n)` clamped to
100 after batch `i`, never decreases during the run, and ends at
exactly 100. -/
theorem progress_reports_correct (n : Nat) (hn : 1 ≤ n) :
    (progressReports n).head? = some (100 / (2 * (n : ℚ))) ∧
    (∀ j : Nat, j < n →
      (progressReports n).get? (j + 1) =
        some (min (100 / (2 * (n : ℚ)) +
          ((j : ℚ) + 1) * ((100 - 100 / (2 * (n : ℚ))) / (n : ℚ))) 100)) ∧
    List.Chain' (· ≤ ·) (progressReports n) ∧
    (progressReports n).getLast? = some 100 := by
  have hnpos : (0 : ℚ) < (n : ℚ) := by exact_mod_cast hn
  have hn1 : (1 : ℚ) ≤ (n : ℚ) := by exact_mod_cast hn
  have hinit_le : 100 / (2 * (n : ℚ)) ≤ 100 := by
    rw [div_le_iff (by positivity)]
    nlinarith
  have hinc : 0 ≤ (100 - 100 / (2 * (n : ℚ))) / (n : ℚ) :=
    div_nonneg (by linarith) hnpos.le
  refine ⟨?_, ?_, ?_, ?_⟩
  · simp [progressReports]
  · intro j hj
    have hlen : (batchProgress ((100 - 100 / (2 * (n : ℚ))) / (n : ℚ)) n
        (100 / (2 * (n : ℚ)))).length = n := batchProgress_length _ n _
    simp only [progressReports, List.cons_append, List.get?_cons_succ]
    rw [List.get?_append (by rw [hlen]; exact hj)]
    exact batchProgress_get hinc n _ j hj
  · simp only [progressReports]
    rw [List.chain'_append]
    refine ⟨batchProgress_chain hinc n _ hinit_le, List.chain'_singleton _, ?_⟩
    intro x hx y hy
    simp only [List.head?_cons, Option.mem_def, Option.some.injEq] at hy
    subst hy
    have hxmem : x ∈ 100 / (2 * (n : ℚ)) ::
        batchProgress ((100 - 100 / (2 * (n : ℚ))) / (n : ℚ)) n
          (100 / (2 * (n : ℚ))) := by
      obtain ⟨hne, hxe⟩ := List.mem_getLast?_eq_getLast hx
      rw [hxe]
      exact List.getLast_mem hne
    rcases List.mem_cons.mp hxmem with h | h
    · subst h; exact hinit_le
    · exact batchProgress_all_le _ n _ x h
  · simp only [progressReports]
    rw [List.getLast?_concat]

/-- C9 (witness): applied to a run with 3 batches. -/
theorem progress_reports_correct_witness :
    (progressReports 3).head? = some (100 / (2 * (3 : ℚ))) ∧
    (progressReports 3).getLast? = some 100 :=
  ⟨(progress_reports_correct 3 (by norm_num)).1,
   (progress_reports_correct 3 (by norm_num)).2.2.2⟩

/-- C10: whenever both requests of a batch return (with responses whose
parses may be anything or fail), `_translate_batch` returns a mapping
whose keys are exactly the batch keys in order — keys of the parsed
response outside the batch are discarded, and no response shape makes
the post-parsing assembly fail. -/
theorem translate_batch_keys_exact (batchKeys : List Str) (newData : AList)
    (hnd : batchKeys.Nodup) (p1 p2 : Option JValue) :
    ∃ res, translateBatch batchKeys newData (.resp p1) (.resp p2) = .ok res ∧
      res.map Prod.fst = batchKeys := by
  obtain ⟨parsed, hparsed⟩ : ∃ w, attemptLoop (.resp p1) (.resp p2) = .ok w := by
    cases p1 with
    | some w => exact ⟨w, rfl⟩
    | none =>
      cases p2 with
      | some w => exact ⟨w, rfl⟩
      | none => exact ⟨.jdict [], rfl⟩
  refine ⟨(buildBatchDict batchKeys newData).map (fun p =>
    (p.1, batchValueFor parsed p.1 p.2 (protectPlaceholders p.2).2)), ?_, ?_⟩
  · simp only [translateBatch, hparsed]
  · rw [List.map_map]
    have hcomp : (Prod.fst ∘ fun p : Str × Str =>
        (p.1, batchValueFor parsed p.1 p.2 (protectPlaceholders p.2).2)) =
        Prod.fst := rfl
    rw [hcomp, buildBatchDict_keys hnd]

/-- C10 (witness): a one-key batch with a non-dict parsed response. -/
theorem translate_batch_keys_exact_witness :
    ∃ res, translateBatch [['k']] [(['k'], ['v'])] (.resp (some .jother))
      (.resp none) = .ok res ∧ res.map Prod.fst = [['k']] :=
  translate_batch_keys_exact [['k']] [(['k'], ['v'])] (by decide)
    (some .jother) none

/-- C6 (counterexample): when the response is invalid for a key, the
returned value is NOT always the original source value: the fallback is
passed through `_restore_placeholders`, so an original value that
happens to contain the literal text of a generated token — here
`{a} __P0__`, which is not token-shaped as a whole claim precondition
but collides with token 0 — comes back altered, as `{a} {a}`. -/
theorem fallback_value_altered_by_restore :
    invalidResponseFor .jother ['k'] = true ∧
    translateBatch [['k']] [(['k'], txtCollide)] (.resp (some .jother))
      (.resp (some .jother)) =
      .ok [(['k'], ['{','a','}',' ','{','a','}'])] ∧
    (['{','a','}',' ','{','a','}'] : Str) ≠ txtCollide := by
  refine ⟨rfl, by rfl, by decide⟩

/-- C6 (amended): if the parsed response is not a mapping, lacks the
key, or maps it to a non-string or whitespace-only string, the returned
value for that key is the original new-file source value with
placeholder restoration applied — which equals the original source
value exactly whenever no generated token occurs literally in it (in
particular for every ordinary value free of token-shaped text). -/
theorem fallback_returns_restored_original (batchKeys : List Str)
    (newData : AList) (k : Str) (parsed : JValue) (o2 : ReqOutcome)
    (hk : k ∈ batchKeys) (hinv : invalidResponseFor parsed k = true) :
    ∃ res, translateBatch batchKeys newData (.resp (some parsed)) o2 =
        .ok res ∧
      alookup res k = some (restorePlaceholders (dget newData k)
        (protectPlaceholders (dget newData k)).2) ∧
      ((∀ p ∈ (protectPlaceholders (dget newData k)).2,
          occursIn p.1 (dget newData k) = false) →
        alookup res k = some (dget newData k)) := by
  have hval : batchValueFor parsed k (dget newData k)
      (protectPlaceholders (dget newData k)).2 =
      restorePlaceholders (dget newData k)
        (protectPlaceholders (dget newData k)).2 := by
    unfold batchValueFor
    unfold invalidResponseFor at hinv
    cases hrv : responseValue parsed k with
    | none => simp [hrv]
    | some jv =>
      cases jv with
      | jstr s =>
        rw [hrv] at hinv
        simp at hinv
        simp [hrv, hinv]
      | jdict es => simp [hrv]
      | jother => simp [hrv]
  have hlook : alookup ((buildBatchDict batchKeys newData).map
      (fun p : Str × Str =>
        (p.1, batchValueFor parsed p.1 p.2 (protectPlaceholders p.2).2))) k =
      some (batchValueFor parsed k (dget newData k)
        (protectPlaceholders (dget newData k)).2) := by
    rw [@alookup_map_value (fun k' v =>
      batchValueFor parsed k' v (protectPlaceholders v).2)]
    rw [buildBatchDict_lookup hk]
    rfl
  refine ⟨(buildBatchDict batchKeys newData).map (fun p : Str × Str =>
    (p.1, batchValueFor parsed p.1 p.2 (protectPlaceholders p.2).2)),
    rfl, ?_, ?_⟩
  · rw [hlook, hval]
  · intro hocc
    rw [hlook, hval, restore_of_not_occurs _ _ hocc]

/-- C6 (witness): a missing key in a dict response falls back to the
original `hi {x}`, whose token does not occur in it. -/
theorem fallback_returns_restored_original_witness :
    ∃ res, translateBatch [['k']] [(['k'], ['h','i',' ','{','x','}'])]
        (.resp (some (.jdict []))) (.resp none) = .ok res ∧
      alookup res ['k'] = some (restorePlaceholders
        (dget [(['k'], ['h','i',' ','{','x','}'])] ['k'])
        (protectPlaceholders
          (dget [(['k'], ['h','i',' ','{','x','}'])] ['k'])).2) ∧
      ((∀ p ∈ (protectPlaceholders
          (dget [(['k'], ['h','i',' ','{','x','}'])] ['k'])).2,
          occursIn p.1 (dget [(['k'], ['h','i',' ','{','x','}'])] ['k']) =
            false) →
        alookup res ['k'] =
          some (dget [(['k'], ['h','i',' ','{','x','}'])] ['k'])) :=
  fallback_returns_restored_original [['k']]
    [(['k'], ['h','i',' ','{','x','}'])] ['k'] (.jdict []) (.resp none)
    (by decide) (by decide)

/-- C4: whenever `translate_keys` completes, the keys of the output
mapping are exactly the keys of the new file, each exactly once, in the
new file's order — for every old file, selection state, and sequence of
request outcomes.  The hypotheses characterise the `kept_keys` and
`new_keys` lists exactly as `_compare_json_files` computes them (their
internal order is Python set-iteration order and is irrelevant). -/
theorem translate_keys_output_order
    (oldData newData : AList) (keptKeys newKeysL : List Str)
    (selected : Str → Bool) (outcomes : Nat → ReqOutcome × ReqOutcome)
    (out : AList)
    (hkept : ∀ k, k ∈ keptKeys ↔
      (k ∈ newData.map Prod.fst ∧ k ∈ oldData.map Prod.fst))
    (hnewL : ∀ k, k ∈ newKeysL ↔
      (k ∈ newData.map Prod.fst ∧ k ∉ oldData.map Prod.fst))
    (hok : translateKeys oldData newData keptKeys newKeysL selected
      outcomes = .ok out) :
    out.map Prod.fst = newData.map Prod.fst := by
  simp only [translateKeys] at hok
  cases hemp : (newKeysL.filter selected).isEmpty with
  | true => rw [hemp] at hok; simp at hok
  | false =>
    rw [hemp] at hok
    simp only [Bool.false_eq_true, if_false] at hok
    cases hpb : processTranslationBatches newData outcomes
        (chunks BATCH_SIZE (newKeysL.filter selected))
        (keptKeys.foldl (fun d k => dinsert d k (dget oldData k)) []) with
    | error e => rw [hpb] at hok; exact Except.noConfusion hok
    | ok r1 =>
      rw [hpb] at hok
      have hout : out = (newData.map Prod.fst).filterMap (fun k =>
          match alookup (newKeysL.foldl
            (fun d k => if selected k then d else dinsert d k (dget newData k))
            r1) k with
          | some v => some (k, v)
          | none => none) := by
        cases hok
        rfl
      -- the batch loop really ran: the batch list is nonempty
      have hpb' : processBatchesFrom newData outcomes 0
          (chunks BATCH_SIZE (newKeysL.filter selected))
          (keptKeys.foldl (fun d k => dinsert d k (dget oldData k)) []) =
          .ok r1 := by
        cases hbe : (chunks BATCH_SIZE (newKeysL.filter selected)).isEmpty with
        | true => rw [processTranslationBatches, hbe] at hpb; simp at hpb
        | false =>
          rw [processTranslationBatches, hbe] at hpb
          simpa using hpb
      have hsome : ∀ k ∈ newData.map Prod.fst,
          (alookup (newKeysL.foldl
            (fun d k => if selected k then d else dinsert d k (dget newData k))
            r1) k).isSome = true := by
        intro k hkmem
        rw [alookup_isSome_iff_mem]
        by_cases hold : k ∈ oldData.map Prod.fst
        · -- kept key: inserted before the batch loop, preserved throughout
          have hk0 : k ∈ keptKeys := (hkept k).mpr ⟨hkmem, hold⟩
          have h0 : k ∈ (keptKeys.foldl
              (fun d k => dinsert d k (dget oldData k)) []).map Prod.fst :=
            foldl_dinsert_cover (fun d k' => ⟨dget oldData k', rfl⟩)
              keptKeys [] k hk0
          have h1 : k ∈ r1.map Prod.fst :=
            processBatchesFrom_ok_keys _ 0 _ r1 hpb' k (Or.inl h0)
          exact foldl_keys_sub (skipStep_cases selected (dget newData))
            newKeysL r1 k h1
        · have hkL : k ∈ newKeysL := (hnewL k).mpr ⟨hkmem, hold⟩
          cases hsel : selected k with
          | true =>
            have htt : k ∈ newKeysL.filter selected :=
              List.mem_filter.mpr ⟨hkL, hsel⟩
            have hflat : k ∈ (chunks BATCH_SIZE
                (newKeysL.filter selected)).flatten := by
              rw [chunks_join (by decide)]
              exact htt
            have h1 : k ∈ r1.map Prod.fst :=
              processBatchesFrom_ok_keys _ 0 _ r1 hpb' k (Or.inr hflat)
            exact foldl_keys_sub (skipStep_cases selected (dget newData))
              newKeysL r1 k h1
          | false =>
            exact foldl_cond_cover newKeysL r1 k hkL hsel
      rw [hout]
      exact filterMap_alookup_keys _ _ hsome

/-- C4 (witness): a two-key new file with one kept and one translated
key assembles to the new file's key order. -/
theorem translate_keys_output_order_witness :
    translateKeys [(['a'], ['1'])] [(['a'], ['1']), (['b'], ['2'])]
      [['a']] [['b']] (fun _ => true)
      (fun _ => (.resp (some (.jdict [(['b'], .jstr ['z'])])), .resp none)) =
      .ok [(['a'], ['1']), (['b'], ['z'])] ∧
    ([(['a'], ['1']), (['b'], ['z'])] : AList).map Prod.fst =
      ([(['a'], ['1']), (['b'], ['2'])] : AList).map Prod.fst := by
  constructor
  · rfl
  · refine translate_keys_output_order [(['a'], ['1'])]
      [(['a'], ['1']), (['b'], ['2'])] [['a']] [['b']] (fun _ => true)
      (fun _ => (.resp (some (.jdict [(['b'], .jstr ['z'])])), .resp none))
      [(['a'], ['1']), (['b'], ['z'])] ?_ ?_ (by rfl)
    · intro k
      constructor
      · intro h
        rcases List.mem_cons.mp h with h | h
        · subst h; exact ⟨by simp, by simp⟩
        · simp at h
      · rintro ⟨_, h2⟩
        simp only [List.map_cons, List.map_nil, List.mem_cons,
          List.not_mem_nil, or_false] at h2
        simp [h2]
    · intro k
      constructor
      · intro h
        rcases List.mem_cons.mp h with h | h
        · subst h
          refine ⟨by simp, ?_⟩
          simp only [List.map_cons, List.map_nil, List.mem_cons,
            List.not_mem_nil, or_false]
          decide
        · simp at h
      · rintro ⟨h1, h2⟩
        simp only [List.map_cons, List.map_nil, List.mem_cons,
          List.not_mem_nil, or_false] at h1 h2
        rcases h1 with h1 | h1
        · exact absurd h1 h2
        · simp [h1]

end JTP
